import Mathlib

/-!
Verification of the download-orchestration core of an IRC ebook fetcher.

The development shallowly embeds the queue manager (`queue_manager.py`) and
the IRC client state machine (`irc_client.py`).  Python's mutable
`QueueItem` objects shared between the queue, the history and the
"current item" pointer are modelled by a heap: an association list from
object identity (a `Nat` id) to the item's record; the live queue, the
completed history and the current pointer hold ids.  Python dataclass
equality (`==` comparing all fields, status included) is record equality.
-/

namespace IrcEbooks

/-- One `QueueItem` dataclass instance: user, filename, derived command and
status (one of "pending", "downloading", "completed", "failed"). -/
structure QueueItemRec where
  user : String
  filename : String
  command : String
  status : String
deriving DecidableEq, Repr

/-- The `QueueManager` state: `heap` maps object ids to item records,
`queue` is the live deque of ids, `completed` the history, `current` the
currently-downloading pointer; `nextId` allocates fresh object ids. -/
structure QMState where
  heap : List (Nat × QueueItemRec)
  queue : List Nat
  completed : List Nat
  current : Option Nat
  nextId : Nat
deriving DecidableEq, Repr

/-- The freshly constructed manager: empty queue, empty history. -/
def qmInit : QMState :=
  { heap := [], queue := [], completed := [], current := none, nextId := 0 }

/-- Look up the record of an object id (dereference the Python object). -/
def itemRec (s : QMState) (i : Nat) : Option QueueItemRec :=
  s.heap.lookup i

/-- The status field of the object with id `i`, if allocated. -/
def statusOf (s : QMState) (i : Nat) : Option String :=
  (itemRec s i).map QueueItemRec.status

/-- Rewrite the status of the entry keyed `i` in a heap. -/
def statusMap (i : Nat) (st : String) : List (Nat × QueueItemRec) → List (Nat × QueueItemRec)
  | [] => []
  | (k, v) :: rest => (k, if k = i then { v with status := st } else v) :: statusMap i st rest

/-- Mutate the status field of the object with id `i` (a Python attribute
assignment through a shared reference). -/
def setStatus (s : QMState) (i : Nat) (st : String) : QMState :=
  { s with heap := statusMap i st s.heap }

/-- Model of `QueueManager.add`: build the command string `!<user> <filename>`,
create a Pending item and append it to the live queue. -/
def qmAdd (s : QMState) (user filename : String) : QMState :=
  let command := "!" ++ user ++ " " ++ filename
  let item : QueueItemRec := { user := user, filename := filename, command := command, status := "pending" }
  { s with heap := s.heap ++ [(s.nextId, item)],
           queue := s.queue ++ [s.nextId],
           nextId := s.nextId + 1 }

/-- Model of `QueueManager.peek_next`: if the queue is non-empty, mark the head item
"downloading" (in place, without removing it) and return its id. -/
def qmPeekNext (s : QMState) : QMState × Option Nat :=
  match s.queue with
  | [] => (s, none)
  | i :: _ => (setStatus s i "downloading", some i)

/-- Model of `QueueManager.mark_completed`: set the item's status to
"completed"/"failed", append it to the history, and pop the queue head
iff the head compares equal (dataclass equality) to the given item. -/
def qmMarkCompleted (s : QMState) (i : Nat) (success : Bool) : QMState :=
  let s1 := setStatus s i (if success then "completed" else "failed")
  let s2 := { s1 with completed := s1.completed ++ [i] }
  match s.queue with
  | [] => s2
  | h :: t => if itemRec s2 h = itemRec s2 i then { s2 with queue := t } else s2

/-- Whether `mark_completed` pops the queue head: the head record, after
the status update, equals the given item's record. -/
def qmPops (s : QMState) (i : Nat) (success : Bool) : Bool :=
  let s1 := setStatus s i (if success then "completed" else "failed")
  let s2 := { s1 with completed := s1.completed ++ [i] }
  match s.queue with
  | [] => false
  | h :: _ => if itemRec s2 h = itemRec s2 i then true else false

/-- Delete the element at an in-range index (`del self._queue[index]`). -/
def removeAt : Nat → List Nat → List Nat
  | 0, _ :: rest => rest
  | n + 1, a :: rest => a :: removeAt n rest
  | _, l => l

/-- Swap the adjacent elements at positions `n` and `n+1`. -/
def swapAt : Nat → List Nat → List Nat
  | 0, a :: b :: rest => b :: a :: rest
  | n + 1, a :: rest => a :: swapAt n rest
  | _, l => l

/-- Model of `QueueManager.remove`: index-guarded deletion; returns whether a
mutation happened. -/
def qmRemove (s : QMState) (index : Nat) : QMState × Bool :=
  if index < s.queue.length then
    ({ s with queue := removeAt index s.queue }, true)
  else (s, false)

/-- Model of `QueueManager.move_up`: guarded by `0 < index < len(queue)`, swaps the
item with its predecessor. -/
def qmMoveUp (s : QMState) (index : Nat) : QMState × Bool :=
  if 0 < index ∧ index < s.queue.length then
    ({ s with queue := swapAt (index - 1) s.queue }, true)
  else (s, false)

/-- Model of `QueueManager.move_down`: guarded by `0 ≤ index < len(queue) - 1`,
swaps the item with its successor. -/
def qmMoveDown (s : QMState) (index : Nat) : QMState × Bool :=
  if index + 1 < s.queue.length then
    ({ s with queue := swapAt index s.queue }, true)
  else (s, false)

/-- Model of `QueueManager.set_current`. -/
def qmSetCurrent (s : QMState) (i : Option Nat) : QMState :=
  { s with current := i }

/-- Model of `QueueManager.get_current`. -/
def qmGetCurrent (s : QMState) : Option Nat :=
  s.current

/-- Model of `QueueManager.is_empty`. -/
def qmIsEmpty (s : QMState) : Bool :=
  s.queue.length = 0

/-- One queue-manager operation, as invoked by clients. `markCompleted`
takes the identity of the Python object passed in. -/
inductive QMOp where
  | add (user filename : String)
  | remove (index : Nat)
  | moveUp (index : Nat)
  | moveDown (index : Nat)
  | markCompleted (i : Nat) (success : Bool)
  | peekNext
deriving DecidableEq, Repr

/-- Apply one operation to the manager state. -/
def applyOp (s : QMState) : QMOp → QMState
  | .add u f => qmAdd s u f
  | .remove idx => (qmRemove s idx).1
  | .moveUp idx => (qmMoveUp s idx).1
  | .moveDown idx => (qmMoveDown s idx).1
  | .markCompleted i success => qmMarkCompleted s i success
  | .peekNext => (qmPeekNext s).1

/-- Run a sequence of operations from a state. -/
def qmRun (s : QMState) : List QMOp → QMState
  | [] => s
  | op :: ops => qmRun (applyOp s op) ops

/-!
## The IRC client (`irc_client.py`)

`IRCEbookClient` state relevant to the claims: the `waiting_for_file`
mode flag (`none | some "Search" | some "Book"`), the DCC transfer
bookkeeping (destination path, byte counters, file handle, bytes written
so far) and the search-completion slot.  Bytes are `Nat`s below 256; the
open file's contents are the list of bytes written to it.
-/

/-- The client-side mutable state of `IRCEbookClient`. -/
structure ClientState where
  waitingForFile : Option String
  latestFilename : Option String
  receivedBytes : Nat
  totalBytes : Nat
  fileOpen : Bool
  fileData : List Nat
  searchResult : Option String
  searchComplete : Bool
deriving DecidableEq, Repr

/-- A client at rest: idle, no transfer, counters zero. -/
def clientInit : ClientState :=
  { waitingForFile := none, latestFilename := none, receivedBytes := 0,
    totalBytes := 0, fileOpen := false, fileData := [],
    searchResult := none, searchComplete := false }

/-- Model of `struct.pack("!I", n)`: the 4-byte big-endian encoding of `n`
(defined for every `n`; the Python call raises for `n ≥ 2^32`, which the
acknowledgement theorems exclude by hypothesis). -/
def pack32 (n : Nat) : List Nat :=
  [n / 2 ^ 24 % 256, n / 2 ^ 16 % 256, n / 2 ^ 8 % 256, n % 256]

/-- Big-endian value of a byte list (what the 4-byte field denotes). -/
def beVal (l : List Nat) : Nat :=
  l.foldl (fun a b => a * 256 + b) 0

/-- Model of `IRCEbookClient.on_dccmsg`: if a destination file is open, append the
chunk, add its length to the received counter, and send back the packed
running total; otherwise do nothing.  The second component is the
acknowledgement written to the DCC byte-stream, if any. -/
def onDccMsg (s : ClientState) (data : List Nat) : ClientState × Option (List Nat) :=
  if s.fileOpen then
    let s1 := { s with fileData := s.fileData ++ data,
                       receivedBytes := s.receivedBytes + data.length }
    (s1, some (pack32 s1.receivedBytes))
  else (s, none)

/-- Feed a sequence of inbound DCC chunks, collecting the acknowledgements
sent after each chunk. -/
def runChunks (s : ClientState) : List (List Nat) → ClientState × List (Option (List Nat))
  | [] => (s, [])
  | c :: cs =>
    let (s1, ack) := onDccMsg s c
    let (s2, acks) := runChunks s1 cs
    (s2, ack :: acks)

/-- Sum of the lengths of a list of chunks. -/
def totalLen (cs : List (List Nat)) : Nat :=
  (cs.map List.length).sum

/-- Does `needle` occur as a contiguous substring of `haystack`
(Python's `needle in message`)? -/
def containsSub (needle : List Char) : List Char → Bool
  | [] => decide (needle = [])
  | c :: rest => needle.isPrefixOf (c :: rest) || containsSub needle rest

/-- The no-results test of `on_privnotice`:
`"returned no matches" in message or "Sorry" in message`. -/
def noResultsNotice (message : String) : Bool :=
  containsSub "returned no matches".data message.data || containsSub "Sorry".data message.data

/-- Model of `IRCEbookClient.on_privnotice`: on a matching notice, clear
`waiting_for_file`, record the `NoResults` sentinel and fire the
search-complete event — with no guard on the current mode. -/
def onPrivnotice (s : ClientState) (message : String) : ClientState :=
  if noResultsNotice message then
    { s with waitingForFile := none, searchResult := some "NoResults", searchComplete := true }
  else s

/-!
## DCC SEND filename handling

`_handle_dcc_send` strips one pair of enclosing quotes from the filename
token and saves to `working_directory / Path(filename).name`.  POSIX
`Path(...).name` is the last path component after dropping empty and "."
components.
-/

/-- Strip one pair of enclosing double quotes, if present
(`filename[1:-1]`). -/
def stripQuotes (f : List Char) : List Char :=
  if f.head? = some '"' ∧ f.getLast? = some '"' then (f.drop 1).dropLast else f

/-- Split a character list on `/` separators. -/
def splitSlash : List Char → List (List Char)
  | [] => [[]]
  | c :: rest =>
    match splitSlash rest with
    | [] => [[]]
    | g :: gs => if c = '/' then [] :: g :: gs else (c :: g) :: gs

/-- POSIX `Path(f).name`: the last component of the path, where empty
components (doubled or trailing slashes, the root) and single-dot
components are dropped; the empty list when no component remains. -/
def pathName (f : List Char) : List Char :=
  (((splitSlash f).filter fun g => g ≠ [] ∧ g ≠ ['.']).getLast?).getD []

/-- The destination path computed by `_handle_dcc_send`:
`working_directory / Path(cleaned filename).name` (pathlib joins with a
separator, except that joining the empty name returns the directory
itself). -/
def dccSavePath (workdir : List Char) (filename : List Char) : List Char :=
  let name := pathName (stripQuotes filename)
  if name = [] then workdir else workdir ++ '/' :: name

/-- Model of `_handle_dcc_send`, after payload tokenisation succeeds: record the
destination path and total size, zero the received counter, then open the
destination file.  `openOk` tells whether `open(save_path, "wb")`
succeeds; when it raises, the three assignments before it have already
happened and the exception is swallowed by `on_ctcp`'s handler, which
performs no cleanup. -/
def handleDccSendOpen (s : ClientState) (workdir filename : List Char)
    (totalSize : Nat) (openOk : Bool) : ClientState :=
  let save := dccSavePath workdir filename
  let s1 := { s with latestFilename := some (String.mk save),
                     totalBytes := totalSize,
                     receivedBytes := 0 }
  if openOk then { s1 with fileOpen := true } else s1

/-- Model of `IRCEbookClient.get_download_progress`: the `(received, total,
percentage)` triple; percentage is rational, `0` when the total is `0`. -/
def getDownloadProgress (s : ClientState) : Nat × Nat × ℚ :=
  if s.totalBytes > 0 then
    (s.receivedBytes, s.totalBytes, ((s.receivedBytes : ℚ) / (s.totalBytes : ℚ)) * 100)
  else
    (s.receivedBytes, s.totalBytes, 0)

/-!
## The client/queue composition (`process_queue`)
-/

/-- The command string of the item with id `i` (total, defaulting for an
unallocated id that the code never produces). -/
def commandOf (s : QMState) (i : Nat) : String :=
  ((itemRec s i).map QueueItemRec.command).getD ""

/-- The slice of client state that `process_queue` touches, together with
the queue manager and the log of channel messages sent. -/
structure EClientState where
  waitingForFile : Option String
  currentItem : Option Nat
  qm : QMState
  sentMessages : List String
deriving DecidableEq, Repr

/-- Model of `IRCEbookClient.process_queue`: when not waiting and the queue is
non-empty, peek (not pop) the head, record it as current (both in the
client and the manager), send its command to the channel and set the mode
to `"Book"`. -/
def processQueue (s : EClientState) : EClientState :=
  if s.waitingForFile = none ∧ ¬ qmIsEmpty s.qm then
    match qmPeekNext s.qm with
    | (qm1, some i) =>
      let qm2 := qmSetCurrent qm1 (some i)
      { s with currentItem := some i,
               qm := qm2,
               sentMessages := s.sentMessages ++ [commandOf qm2 i],
               waitingForFile := some "Book" }
    | (qm1, none) => { s with qm := qm1 }
  else s

/-!
## Invariants and trace predicates
-/

/-- Is the head of the live queue currently not marked "downloading"
(vacuously true on an empty queue)? -/
def headNotDownloading (s : QMState) : Bool :=
  match s.queue with
  | [] => true
  | h :: _ => !(statusOf s h == some "downloading")

/-- The guard of the amended C1 claim: `move_up(1)` and `move_down(0)`
(the two calls that displace the queue head) are only issued while the
head is not Downloading. -/
def opSafe (s : QMState) : QMOp → Bool
  | .moveUp 1 => headNotDownloading s
  | .moveDown 0 => headNotDownloading s
  | _ => true

/-- A whole operation sequence satisfies `opSafe` at each step. -/
def safeOps (s : QMState) : List QMOp → Bool
  | [] => true
  | op :: ops => opSafe s op && safeOps (applyOp s op) ops

/-- The guard of the amended C9 claim: `mark_completed` is only ever
called on the item currently at the queue head. -/
def headOnlyOk (s : QMState) : QMOp → Bool
  | .markCompleted i _ => s.queue.head? == some i
  | _ => true

/-- A whole operation sequence satisfies `headOnlyOk` at each step. -/
def headOnlyOps (s : QMState) : List QMOp → Bool
  | [] => true
  | op :: ops => headOnlyOk s op && headOnlyOps (applyOp s op) ops

/-- Bookkeeping invariant: heap keys and queue ids are below the
allocation counter, and the queue holds no duplicate object ids. -/
def WFBase (s : QMState) : Prop :=
  (∀ p ∈ s.heap, p.1 < s.nextId) ∧ (∀ i ∈ s.queue, i < s.nextId) ∧ s.queue.Nodup

/-- The C1 invariant: any Downloading item in the live queue is the
queue head. -/
def DownloadingAtHeadOnly (s : QMState) : Prop :=
  ∀ i ∈ s.queue, statusOf s i = some "downloading" → s.queue.head? = some i

/-- The C9 auxiliary invariant: every item in the live queue is Pending
or Downloading (completed/failed items have been popped). -/
def QueueLive (s : QMState) : Prop :=
  ∀ i ∈ s.queue, statusOf s i = some "pending" ∨ statusOf s i = some "downloading"

/-- Progress order on item statuses: Pending before Downloading before
the terminal Completed/Failed. -/
def statusRank : String → Nat
  | "pending" => 0
  | "downloading" => 1
  | _ => 2

/-- Trace refuting C1 as stated: start a download, `move_down(0)` the
Downloading head, then `peek_next` the new head. -/
def c1Trace : List QMOp :=
  [.add "a" "f1", .add "b" "f2", .peekNext, .moveDown 0, .peekNext]

/-- A safe trace exercising the amended C1 claim. -/
def c1SafeTrace : List QMOp :=
  [.add "a" "f1", .add "b" "f2", .add "c" "f3", .peekNext, .moveDown 1,
   .markCompleted 0 true, .peekNext]

/-- Trace refuting C9 as stated: `mark_completed` on a non-head item
leaves the Completed item in the live queue. -/
def c9Trace : List QMOp :=
  [.add "a" "f1", .add "b" "f2", .markCompleted 1 true]

/-- A head-only trace exercising the amended C9 claim. -/
def c9SafeTrace : List QMOp :=
  [.add "a" "f1", .add "b" "f2", .peekNext, .markCompleted 0 true]

/-- State refuting C3 as stated: one item added, peeked (Downloading) and
recorded as current — exactly the situation in which `mark_completed` is
called by the client on transfer completion. -/
def c3State : QMState :=
  qmSetCurrent (qmPeekNext (qmAdd qmInit "a" "f")).1 (some 0)

/-- A one-item client/queue state about to be processed, for the C5
witness. -/
def c5State : EClientState :=
  { waitingForFile := none, currentItem := none,
    qm := qmAdd qmInit "alice" "book1.epub", sentMessages := [] }

/-!
## Helper lemmas about the heap and the queue-shuffling primitives
-/

theorem lookup_append (l1 l2 : List (Nat × QueueItemRec)) (k : Nat) :
    (l1 ++ l2).lookup k = ((l1.lookup k).or (l2.lookup k)) := by
  induction l1 with
  | nil => simp [List.lookup]
  | cons p l1 ih =>
    by_cases hk : k = p.1
    · simp [List.lookup, hk, Option.or]
    · simpa [List.lookup, beq_false_of_ne hk] using ih

theorem lookup_eq_none_of_lt (l : List (Nat × QueueItemRec)) (k : Nat)
    (h : ∀ p ∈ l, p.1 ≠ k) : l.lookup k = none := by
  induction l with
  | nil => rfl
  | cons p l ih =>
    have hp : p.1 ≠ k := h p (by simp)
    have : (k == p.1) = false := beq_false_of_ne fun hk => hp hk.symm
    simp only [List.lookup, this]
    exact ih fun q hq => h q (by simp [hq])

theorem lookup_statusMap (i j : Nat) (st : String) (l : List (Nat × QueueItemRec)) :
    (statusMap i st l).lookup j =
      if j = i then (l.lookup j).map (fun r => { r with status := st }) else l.lookup j := by
  induction l with
  | nil => by_cases h : j = i <;> simp [statusMap, List.lookup, h]
  | cons p l ih =>
    obtain ⟨k, v⟩ := p
    by_cases hjk : j = k
    · subst hjk
      by_cases hji : j = i
      · subst hji
        simp [statusMap, List.lookup]
      · simp [statusMap, List.lookup, hji]
    · have hb : (j == k) = false := beq_false_of_ne hjk
      by_cases hji : j = i
      · subst hji
        simp [statusMap, List.lookup, hb, ih]
      · simp [statusMap, List.lookup, hb, hji, ih]

theorem itemRec_setStatus (s : QMState) (i j : Nat) (st : String) :
    itemRec (setStatus s i st) j =
      if j = i then (itemRec s j).map (fun r => { r with status := st })
      else itemRec s j :=
  lookup_statusMap i j st s.heap

theorem statusOf_setStatus (s : QMState) (i j : Nat) (st : String) :
    statusOf (setStatus s i st) j =
      if j = i then (statusOf s j).map (fun _ => st) else statusOf s j := by
  unfold statusOf
  rw [itemRec_setStatus]
  by_cases h : j = i
  · subst h
    cases itemRec s j <;> simp
  · simp [h]

theorem setStatus_queue (s : QMState) (i : Nat) (st : String) :
    (setStatus s i st).queue = s.queue := rfl

theorem setStatus_nextId (s : QMState) (i : Nat) (st : String) :
    (setStatus s i st).nextId = s.nextId := rfl

theorem setStatus_completed (s : QMState) (i : Nat) (st : String) :
    (setStatus s i st).completed = s.completed := rfl

theorem setStatus_current (s : QMState) (i : Nat) (st : String) :
    (setStatus s i st).current = s.current := rfl

theorem statusMap_keys (i : Nat) (st : String) (l : List (Nat × QueueItemRec)) :
    (statusMap i st l).map Prod.fst = l.map Prod.fst := by
  induction l with
  | nil => rfl
  | cons p l ih =>
    obtain ⟨k, v⟩ := p
    simp [statusMap, ih]

theorem swapAt_perm (n : Nat) (l : List Nat) : (swapAt n l).Perm l := by
  induction n generalizing l with
  | zero =>
    match l with
    | [] => simp [swapAt]
    | [a] => simp [swapAt]
    | a :: b :: rest => exact List.Perm.swap a b rest
  | succ n ih =>
    match l with
    | [] => simp [swapAt]
    | a :: rest => exact (ih rest).cons a

theorem swapAt_head_of_pos (n : Nat) (hn : 0 < n) (l : List Nat) :
    (swapAt n l).head? = l.head? := by
  match n, hn, l with
  | n + 1, _, [] => rfl
  | n + 1, _, a :: rest => rfl

theorem removeAt_sublist (n : Nat) (l : List Nat) : (removeAt n l).Sublist l := by
  induction n generalizing l with
  | zero =>
    match l with
    | [] => simp [removeAt]
    | a :: rest => exact (List.sublist_cons_self a rest)
  | succ n ih =>
    match l with
    | [] => simp [removeAt]
    | a :: rest => exact (ih rest).cons₂ a

theorem removeAt_head_of_pos (n : Nat) (hn : 0 < n) (l : List Nat) :
    (removeAt n l).head? = l.head? := by
  match n, hn, l with
  | n + 1, _, [] => rfl
  | n + 1, _, a :: rest => rfl

theorem nodup_length_le_one_of_all_eq {l : List Nat} (hnd : l.Nodup) (c : Nat)
    (h : ∀ a ∈ l, a = c) : l.length ≤ 1 := by
  match l with
  | [] => simp
  | [a] => simp
  | a :: b :: rest =>
    have ha : a = c := h a (by simp)
    have hb : b = c := h b (by simp)
    have : a ≠ b := by
      have := hnd
      simp only [List.nodup_cons, List.mem_cons] at this
      exact fun hab => this.1 (Or.inl hab)
    exact absurd (ha.trans hb.symm) this

theorem mem_of_getLast?_eq {α : Type} {l : List α} {g : α}
    (h : l.getLast? = some g) : g ∈ l := by
  induction l with
  | nil => simp at h
  | cons a l ih =>
    cases l with
    | nil =>
      simp [List.getLast?] at h
      simp [h]
    | cons b t =>
      rw [List.getLast?_cons_cons] at h
      exact List.mem_cons_of_mem a (ih h)

theorem splitSlash_no_slash (f : List Char) : ∀ g ∈ splitSlash f, '/' ∉ g := by
  induction f with
  | nil =>
    intro g hg
    simp [splitSlash] at hg
    simp [hg]
  | cons c rest ih =>
    intro g hg
    unfold splitSlash at hg
    cases hs : splitSlash rest with
    | nil =>
      rw [hs] at hg
      simp at hg
      simp [hg]
    | cons g0 gs =>
      rw [hs] at hg
      rw [hs] at ih
      have hg2 : g ∈ if c = '/' then [] :: g0 :: gs else (c :: g0) :: gs := hg
      by_cases hc : c = '/'
      · rw [if_pos hc] at hg2
        rcases List.mem_cons.mp hg2 with hg3 | hg3
        · simp [hg3]
        · exact ih g hg3
      · rw [if_neg hc] at hg2
        rcases List.mem_cons.mp hg2 with hg3 | hg3
        · subst hg3
          intro hmem
          rcases List.mem_cons.mp hmem with hh | hh
          · exact hc hh.symm
          · exact ih g0 (List.mem_cons_self g0 gs) hh
        · exact ih g (List.mem_cons_of_mem g0 hg3)

theorem pathName_no_slash (f : List Char) : '/' ∉ pathName f := by
  unfold pathName
  cases hl : ((splitSlash f).filter fun g => g ≠ [] ∧ g ≠ ['.']).getLast? with
  | none => simp
  | some g =>
    have hmem : g ∈ (splitSlash f).filter fun g => g ≠ [] ∧ g ≠ ['.'] :=
      mem_of_getLast?_eq hl
    have : g ∈ splitSlash f := (List.mem_filter.mp hmem).1
    simpa using splitSlash_no_slash f g this

theorem splitSlash_of_no_slash (f : List Char) (h : '/' ∉ f) : splitSlash f = [f] := by
  induction f with
  | nil => rfl
  | cons c rest ih =>
    have hc : ¬ c = '/' := fun hcc => h (hcc ▸ List.mem_cons_self c rest)
    have hr : '/' ∉ rest := fun hm => h (List.mem_cons_of_mem c hm)
    unfold splitSlash
    rw [ih hr]
    show (if c = '/' then [] :: rest :: [] else (c :: rest) :: []) = [c :: rest]
    rw [if_neg hc]

theorem qmMarkCompleted_spec (s : QMState) (i : Nat) (success : Bool) :
    qmMarkCompleted s i success =
      { heap := (setStatus s i (if success then "completed" else "failed")).heap,
        queue := if qmPops s i success then s.queue.tail else s.queue,
        completed := s.completed ++ [i],
        current := s.current,
        nextId := s.nextId } := by
  unfold qmMarkCompleted qmPops
  generalize (if success = true then "completed" else "failed") = st
  cases hq : s.queue with
  | nil => simp [setStatus_queue, setStatus_completed, setStatus_current, setStatus_nextId, hq]
  | cons h t =>
    dsimp only
    split
    · next hc =>
        simp [hc, setStatus_queue, setStatus_completed, setStatus_current, setStatus_nextId, hq]
    · next hc =>
        simp [hc, setStatus_queue, setStatus_completed, setStatus_current, setStatus_nextId, hq]

/-!
## Claims
-/

/-- Claim C8: `get_download_progress` returns the triple
`(receivedBytes, totalBytes, percentage)` where the percentage is exactly
`0` when `totalBytes` is `0` (no division by zero occurs) and exactly
`100 * received / total` otherwise; the function is total, so it cannot
fail even when `received` exceeds `total`. -/
theorem c8_progress_triple (s : ClientState) :
    getDownloadProgress s =
      (s.receivedBytes, s.totalBytes,
        if s.totalBytes = 0 then (0 : ℚ)
        else 100 * (s.receivedBytes : ℚ) / (s.totalBytes : ℚ)) := by
  unfold getDownloadProgress
  rcases Nat.eq_zero_or_pos s.totalBytes with h | h
  · simp [h]
  · have hne : s.totalBytes ≠ 0 := Nat.pos_iff_ne_zero.mp h
    rw [if_pos h, if_neg hne]
    simp only [Prod.mk.injEq, true_and]
    ring

/-- Claim C10: a DCC data chunk arriving while no destination file handle
is open is a complete no-op — nothing is written, the received counter is
unchanged, no acknowledgement is sent, and (the handler being a total
function) no exception escapes. -/
theorem c10_no_handle_noop (s : ClientState) (data : List Nat)
    (h : s.fileOpen = false) :
    onDccMsg s data = (s, none) := by
  unfold onDccMsg
  rw [h]
  simp

/-- Witness for C10: the freshly initialised client has no open handle,
and a three-byte chunk leaves it untouched. -/
theorem c10_no_handle_noop_witness :
    clientInit.fileOpen = false ∧ onDccMsg clientInit [7, 8, 9] = (clientInit, none) :=
  ⟨rfl, c10_no_handle_noop clientInit [7, 8, 9] rfl⟩

/-- Claim C4 (code evaluation at the failing input): when opening the
destination file raises, `on_ctcp` swallows the exception without any
cleanup, so a client handling a DCC SEND while in mode "Book" keeps
`waiting_for_file = "Book"` — it is not reset to Idle as the claim
requires; in general an open failure never changes `waiting_for_file`. -/
theorem c4_open_failure_keeps_mode :
    (handleDccSendOpen { clientInit with waitingForFile := some "Book" }
        "/downloads".data "book1.epub".data 12345 false).waitingForFile = some "Book" ∧
    (handleDccSendOpen { clientInit with waitingForFile := some "Book" }
        "/downloads".data "book1.epub".data 12345 false).fileOpen = false ∧
    ∀ (s : ClientState) (wd f : List Char) (n : Nat),
      (handleDccSendOpen s wd f n false).waitingForFile = s.waitingForFile :=
  ⟨rfl, rfl, fun _ _ _ _ => rfl⟩

/-- Claim C6 (counterexample): a notice containing "Sorry" arriving while
the mode is "Book" (AwaitingBook) is not ignored — `on_privnotice` clears
the mode, overwrites the search-result slot with the NoResults sentinel
and fires the search-complete event. -/
theorem c6_counterexample :
    (onPrivnotice { clientInit with waitingForFile := some "Book" } "Sorry").waitingForFile
        = none ∧
    (onPrivnotice { clientInit with waitingForFile := some "Book" } "Sorry").searchResult
        = some "NoResults" ∧
    (onPrivnotice { clientInit with waitingForFile := some "Book" } "Sorry").searchComplete
        = true := by
  refine ⟨?_, ?_, ?_⟩ <;> decide

/-- Claim C6 (amended): a no-results private notice (one containing
"returned no matches" or "Sorry") sets the mode to Idle, records the
NoResults sentinel and fires search-complete from every mode — including
AwaitingBook and Idle, not only AwaitingSearch; a notice matching neither
pattern leaves the whole state unchanged. -/
theorem c6_amended (s : ClientState) (message : String) :
    (noResultsNotice message = true →
      (onPrivnotice s message).waitingForFile = none ∧
      (onPrivnotice s message).searchResult = some "NoResults" ∧
      (onPrivnotice s message).searchComplete = true) ∧
    (noResultsNotice message = false → onPrivnotice s message = s) ∧
    noResultsNotice "Your search returned no matches" = true ∧
    noResultsNotice "Sorry, nothing found" = true ∧
    noResultsNotice "here is your file" = false := by
  refine ⟨?_, ?_, by decide, by decide, by decide⟩
  · intro h
    refine ⟨?_, ?_, ?_⟩ <;> simp [onPrivnotice, h]
  · intro h
    simp [onPrivnotice, h]

/-- Witness for C6 at a concrete state and message. -/
theorem c6_amended_witness :
    (noResultsNotice "Sorry" = true →
      (onPrivnotice { clientInit with waitingForFile := some "Book" } "Sorry").waitingForFile
          = none ∧
      (onPrivnotice { clientInit with waitingForFile := some "Book" } "Sorry").searchResult
          = some "NoResults" ∧
      (onPrivnotice { clientInit with waitingForFile := some "Book" } "Sorry").searchComplete
          = true) ∧
    (noResultsNotice "Sorry" = false →
      onPrivnotice { clientInit with waitingForFile := some "Book" } "Sorry"
        = { clientInit with waitingForFile := some "Book" }) ∧
    noResultsNotice "Your search returned no matches" = true ∧
    noResultsNotice "Sorry, nothing found" = true ∧
    noResultsNotice "here is your file" = false :=
  c6_amended { clientInit with waitingForFile := some "Book" } "Sorry"

/-- Claim C7: the destination path for a DCC SEND filename token is the
configured working directory joined with the base name (`Path(f).name`)
of the quote-stripped filename; the base name contains no `/`, so every
directory component supplied by the peer is discarded and the file lies
directly under the working directory; a plain filename (no slash, not
empty, not ".") passes through unchanged. -/
theorem c7_sanitized_path (workdir f : List Char) :
    (pathName (stripQuotes f) ≠ [] →
      dccSavePath workdir f = workdir ++ '/' :: pathName (stripQuotes f)) ∧
    (∀ c ∈ pathName (stripQuotes f), c ≠ '/') ∧
    ('/' ∉ stripQuotes f → stripQuotes f ≠ [] → stripQuotes f ≠ ['.'] →
      pathName (stripQuotes f) = stripQuotes f) := by
  refine ⟨?_, ?_, ?_⟩
  · intro hne
    unfold dccSavePath
    rw [if_neg hne]
  · intro c hc hcslash
    exact pathName_no_slash (stripQuotes f) (hcslash ▸ hc)
  · intro h1 h2 h3
    unfold pathName
    rw [splitSlash_of_no_slash (stripQuotes f) h1]
    simp [h2, h3]

theorem totalLen_cons (c : List Nat) (cs : List (List Nat)) :
    totalLen (c :: cs) = c.length + totalLen cs := by
  simp [totalLen]

theorem totalLen_append (a b : List (List Nat)) :
    totalLen (a ++ b) = totalLen a + totalLen b := by
  simp [totalLen]

theorem totalLen_take_le (cs : List (List Nat)) (k : Nat) :
    totalLen (cs.take k) ≤ totalLen cs := by
  conv_rhs => rw [← List.take_append_drop k cs]
  rw [totalLen_append]
  omega

theorem getD_map_range {β : Type} (d : β) (n : Nat) (f : Nat → β) (j : Nat) (hj : j < n) :
    ((List.range n).map f).getD j d = f j := by
  rw [List.getD_eq_getElem?_getD, List.getElem?_map, List.getElem?_range hj]
  rfl

theorem beVal_pack32 (n : Nat) (h : n < 2 ^ 32) : beVal (pack32 n) = n := by
  unfold beVal pack32
  simp only [List.foldl]
  norm_num
  omega

theorem onDccMsg_open (s : ClientState) (c : List Nat) (hOpen : s.fileOpen = true) :
    onDccMsg s c =
      ({ s with fileData := s.fileData ++ c,
                receivedBytes := s.receivedBytes + c.length },
       some (pack32 (s.receivedBytes + c.length))) := by
  unfold onDccMsg
  rw [hOpen]
  simp

theorem runChunks_cons (s : ClientState) (c : List Nat) (cs : List (List Nat)) :
    runChunks s (c :: cs) =
      ((runChunks (onDccMsg s c).1 cs).1,
       (onDccMsg s c).2 :: (runChunks (onDccMsg s c).1 cs).2) := rfl

theorem runChunks_spec (cs : List (List Nat)) (s : ClientState) (hOpen : s.fileOpen = true) :
    (runChunks s cs).1.fileOpen = true ∧
    (runChunks s cs).1.receivedBytes = s.receivedBytes + totalLen cs ∧
    (runChunks s cs).1.fileData = s.fileData ++ cs.flatten ∧
    (runChunks s cs).2 = (List.range cs.length).map
      (fun j => some (pack32 (s.receivedBytes + totalLen (cs.take (j + 1))))) := by
  induction cs generalizing s with
  | nil => simp [runChunks, totalLen, hOpen]
  | cons c cs ih =>
    rw [runChunks_cons, onDccMsg_open s c hOpen]
    obtain ⟨ih1, ih2, ih3, ih4⟩ :=
      ih { s with fileData := s.fileData ++ c,
                  receivedBytes := s.receivedBytes + c.length } hOpen
    dsimp only at ih2 ih3 ih4 ⊢
    refine ⟨ih1, ?_, ?_, ?_⟩
    · rw [ih2, totalLen_cons]
      omega
    · rw [ih3]
      simp
    · rw [ih4, List.length_cons, List.range_succ_eq_map, List.map_cons, List.map_map]
      refine congrArg₂ (fun a l => a :: l) ?_ ?_
      · simp [totalLen]
      · apply List.map_congr_left
        intro j hj
        simp [totalLen, Nat.add_assoc]

/-- Claim C2: feeding a sequence of inbound DCC chunks to `on_dccmsg`
appends each chunk to the file, adds its length to the received counter,
and acknowledges after each chunk with the 4-byte big-endian unsigned
encoding of the running total of bytes received so far — the j-th
acknowledgement encodes the sum of the first j+1 chunk sizes, never the
size of the individual chunk. -/
theorem c2_running_total_acks (s : ClientState) (cs : List (List Nat))
    (hOpen : s.fileOpen = true) (h0 : s.receivedBytes = 0)
    (hfit : totalLen cs < 2 ^ 32) :
    (runChunks s cs).1.receivedBytes = totalLen cs ∧
    (runChunks s cs).1.fileData = s.fileData ++ cs.flatten ∧
    ((runChunks s cs).2).length = cs.length ∧
    ∀ j, j < cs.length →
      (runChunks s cs).2.getD j none = some (pack32 (totalLen (cs.take (j + 1)))) ∧
      beVal (pack32 (totalLen (cs.take (j + 1)))) = totalLen (cs.take (j + 1)) := by
  obtain ⟨h1, h2, h3, h4⟩ := runChunks_spec cs s hOpen
  rw [h0] at h2
  refine ⟨by rw [h2]; omega, h3, by rw [h4]; simp, ?_⟩
  intro j hj
  constructor
  · rw [h4, getD_map_range _ _ _ _ hj, h0, Nat.zero_add]
  · exact beVal_pack32 _ (Nat.lt_of_le_of_lt (totalLen_take_le cs (j + 1)) hfit)

/-- Witness for C2: three chunks of sizes 2, 1 and 3 produce the
acknowledgements 2, 3 and 6 in big-endian form. -/
theorem c2_running_total_acks_witness :
    ({ clientInit with fileOpen := true } : ClientState).fileOpen = true ∧
    ({ clientInit with fileOpen := true } : ClientState).receivedBytes = 0 ∧
    totalLen [[1, 2], [3], [4, 5, 6]] < 2 ^ 32 ∧
    ((runChunks { clientInit with fileOpen := true } [[1, 2], [3], [4, 5, 6]]).1.receivedBytes
        = totalLen [[1, 2], [3], [4, 5, 6]] ∧
      (runChunks { clientInit with fileOpen := true } [[1, 2], [3], [4, 5, 6]]).1.fileData
        = ({ clientInit with fileOpen := true } : ClientState).fileData
            ++ [[1, 2], [3], [4, 5, 6]].flatten ∧
      ((runChunks { clientInit with fileOpen := true } [[1, 2], [3], [4, 5, 6]]).2).length
        = [[1, 2], [3], [4, 5, 6]].length ∧
      ∀ j, j < [[1, 2], [3], [4, 5, 6]].length →
        (runChunks { clientInit with fileOpen := true } [[1, 2], [3], [4, 5, 6]]).2.getD j none
          = some (pack32 (totalLen ([[1, 2], [3], [4, 5, 6]].take (j + 1)))) ∧
        beVal (pack32 (totalLen ([[1, 2], [3], [4, 5, 6]].take (j + 1))))
          = totalLen ([[1, 2], [3], [4, 5, 6]].take (j + 1))) :=
  ⟨rfl, rfl, by decide,
    c2_running_total_acks { clientInit with fileOpen := true } [[1, 2], [3], [4, 5, 6]]
      rfl rfl (by decide)⟩

/-- Witness for C7: a hostile path-traversal filename resolves to a
plain base name directly under the working directory. -/
theorem c7_sanitized_path_witness :
    (pathName (stripQuotes "\"../../etc/passwd\"".data) ≠ [] →
      dccSavePath "/downloads".data "\"../../etc/passwd\"".data
        = "/downloads".data ++ '/' :: pathName (stripQuotes "\"../../etc/passwd\"".data)) ∧
    (∀ c ∈ pathName (stripQuotes "\"../../etc/passwd\"".data), c ≠ '/') ∧
    ('/' ∉ stripQuotes "\"../../etc/passwd\"".data →
      stripQuotes "\"../../etc/passwd\"".data ≠ [] →
      stripQuotes "\"../../etc/passwd\"".data ≠ ['.'] →
      pathName (stripQuotes "\"../../etc/passwd\"".data)
        = stripQuotes "\"../../etc/passwd\"".data) :=
  c7_sanitized_path "/downloads".data "\"../../etc/passwd\"".data

/-- Claim C3 (counterexample): from the reachable state with one item
added, peeked (hence Downloading) and recorded as current — the very
situation in which `mark_completed` runs on transfer completion — calling
`mark_completed(item, success=True)` leaves `get_current()` returning the
item, not none: `mark_completed` never touches the current pointer. -/
theorem c3_counterexample :
    qmGetCurrent (qmMarkCompleted c3State 0 true) = some 0 ∧
    qmGetCurrent (qmMarkCompleted c3State 0 true) ≠ none := by
  refine ⟨by decide, by decide⟩

/-- Claim C3 (amended): `mark_completed(item, success=True)` sets the
item's status to "completed", grows the history by exactly one, pops the
live queue head exactly when the head compares equal (dataclass equality)
to the item — in particular whenever the item is the head — and leaves
the current pointer exactly as it was, so `get_current()` afterwards
returns the previous current item, not necessarily none. -/
theorem c3_mark_completed_spec (s : QMState) (i : Nat) :
    (qmMarkCompleted s i true).completed.length = s.completed.length + 1 ∧
    qmGetCurrent (qmMarkCompleted s i true) = qmGetCurrent s ∧
    (∀ r, itemRec s i = some r →
      itemRec (qmMarkCompleted s i true) i = some { r with status := "completed" }) ∧
    (qmMarkCompleted s i true).queue =
      (if qmPops s i true then s.queue.tail else s.queue) ∧
    (s.queue.head? = some i → qmPops s i true = true) := by
  rw [qmMarkCompleted_spec]
  refine ⟨by simp, rfl, ?_, rfl, ?_⟩
  · intro r hr
    show itemRec (setStatus s i "completed") i = _
    rw [itemRec_setStatus]
    simp [hr]
  · intro hhead
    unfold qmPops
    cases hq : s.queue with
    | nil => rw [hq] at hhead; simp at hhead
    | cons h t =>
      rw [hq] at hhead
      have hih : h = i := by simpa using hhead
      subst hih
      simp

/-- Witness for C3 (amended) at the counterexample state. -/
theorem c3_mark_completed_spec_witness :
    (qmMarkCompleted c3State 0 true).completed.length = c3State.completed.length + 1 ∧
    qmGetCurrent (qmMarkCompleted c3State 0 true) = qmGetCurrent c3State ∧
    (∀ r, itemRec c3State 0 = some r →
      itemRec (qmMarkCompleted c3State 0 true) 0 = some { r with status := "completed" }) ∧
    (qmMarkCompleted c3State 0 true).queue =
      (if qmPops c3State 0 true then c3State.queue.tail else c3State.queue) ∧
    (c3State.queue.head? = some 0 → qmPops c3State 0 true = true) :=
  c3_mark_completed_spec c3State 0

/-- Claim C5: when the mode is idle (`waiting_for_file` is none) and the
queue is non-empty, `process_queue` peeks — without popping — the head
item, marks it Downloading, records it as current both in the client and
in the queue manager, sends the item's command string to the channel and
sets the mode to "Book"; the item is still at the head of the live queue
afterwards. -/
theorem c5_process_queue_starts_head (s : EClientState) (i : Nat) (t : List Nat)
    (r : QueueItemRec) (hw : s.waitingForFile = none) (hq : s.qm.queue = i :: t)
    (hr : itemRec s.qm i = some r) :
    (processQueue s).waitingForFile = some "Book" ∧
    (processQueue s).currentItem = some i ∧
    (processQueue s).qm.current = some i ∧
    (processQueue s).qm.queue = i :: t ∧
    itemRec (processQueue s).qm i = some { r with status := "downloading" } ∧
    (processQueue s).sentMessages = s.sentMessages ++ [r.command] := by
  have hpeek : qmPeekNext s.qm = (setStatus s.qm i "downloading", some i) := by
    unfold qmPeekNext
    rw [hq]
  have hcond : s.waitingForFile = none ∧ ¬ qmIsEmpty s.qm = true :=
    ⟨hw, by simp [qmIsEmpty, hq]⟩
  have hrec2 : itemRec (qmSetCurrent (setStatus s.qm i "downloading") (some i)) i
      = some { r with status := "downloading" } := by
    show itemRec (setStatus s.qm i "downloading") i = _
    rw [itemRec_setStatus]
    simp [hr]
  unfold processQueue
  rw [if_pos hcond, hpeek]
  refine ⟨rfl, rfl, rfl, hq, hrec2, ?_⟩
  show s.sentMessages
      ++ [commandOf (qmSetCurrent (setStatus s.qm i "downloading") (some i)) i] = _
  unfold commandOf
  rw [hrec2]
  rfl

/-- Witness for C5: a one-item queue is started; the command
`!alice book1.epub` is sent and the item stays at the head. -/
theorem c5_process_queue_starts_head_witness :
    c5State.waitingForFile = none ∧
    c5State.qm.queue = 0 :: [] ∧
    itemRec c5State.qm 0
      = some { user := "alice", filename := "book1.epub",
               command := "!alice book1.epub", status := "pending" } ∧
    ((processQueue c5State).waitingForFile = some "Book" ∧
      (processQueue c5State).currentItem = some 0 ∧
      (processQueue c5State).qm.current = some 0 ∧
      (processQueue c5State).qm.queue = 0 :: [] ∧
      itemRec (processQueue c5State).qm 0
        = some { user := "alice", filename := "book1.epub",
                 command := "!alice book1.epub", status := "downloading" } ∧
      (processQueue c5State).sentMessages
        = c5State.sentMessages ++ ["!alice book1.epub"]) :=
  ⟨rfl, rfl, by decide,
    c5_process_queue_starts_head c5State 0 []
      { user := "alice", filename := "book1.epub",
        command := "!alice book1.epub", status := "pending" }
      rfl rfl (by decide)⟩

/-!
## Preservation of the queue-manager invariants (claims C1 and C9)
-/

theorem qmAdd_queue (s : QMState) (u f : String) :
    (qmAdd s u f).queue = s.queue ++ [s.nextId] := rfl

theorem qmAdd_nextId (s : QMState) (u f : String) :
    (qmAdd s u f).nextId = s.nextId + 1 := rfl

theorem statusOf_qmAdd_old (s : QMState) (u f : String) (j : Nat) (hj : j ≠ s.nextId) :
    statusOf (qmAdd s u f) j = statusOf s j := by
  unfold statusOf itemRec qmAdd
  dsimp only
  rw [lookup_append]
  have hnone : ([(s.nextId,
      ({ user := u, filename := f, command := "!" ++ u ++ " " ++ f,
         status := "pending" } : QueueItemRec))] : List (Nat × QueueItemRec)).lookup j
      = none := by
    simp [List.lookup, beq_false_of_ne hj]
  rw [hnone]
  cases s.heap.lookup j <;> rfl

theorem statusOf_qmAdd_new (s : QMState) (u f : String)
    (hkeys : ∀ p ∈ s.heap, p.1 < s.nextId) :
    statusOf (qmAdd s u f) s.nextId = some "pending" := by
  unfold statusOf itemRec qmAdd
  dsimp only
  rw [lookup_append]
  have h1 : s.heap.lookup s.nextId = none :=
    lookup_eq_none_of_lt s.heap s.nextId fun p hp => Nat.ne_of_lt (hkeys p hp)
  rw [h1]
  simp [List.lookup]

theorem wfBase_qmAdd (s : QMState) (u f : String) (hwf : WFBase s) :
    WFBase (qmAdd s u f) := by
  obtain ⟨hk, hq, hnd⟩ := hwf
  refine ⟨?_, ?_, ?_⟩
  · intro p hp
    rcases List.mem_append.mp hp with hp | hp
    · exact Nat.lt_succ_of_lt (hk p hp)
    · have hpe := List.mem_singleton.mp hp
      rw [hpe]
      exact Nat.lt_succ_self _
  · intro i hi
    rw [qmAdd_queue] at hi
    rcases List.mem_append.mp hi with hi | hi
    · exact Nat.lt_succ_of_lt (hq i hi)
    · have : i = s.nextId := by simpa using hi
      rw [this, qmAdd_nextId]
      exact Nat.lt_succ_self _
  · rw [qmAdd_queue]
    rw [List.nodup_append]
    refine ⟨hnd, List.nodup_singleton _, ?_⟩
    intro a ha hb
    have : a = s.nextId := by simpa using hb
    exact absurd (hq a ha) (by rw [this]; exact Nat.lt_irrefl _)

theorem dho_qmAdd (s : QMState) (u f : String) (hwf : WFBase s)
    (hd : DownloadingAtHeadOnly s) : DownloadingAtHeadOnly (qmAdd s u f) := by
  intro i hi hdown
  have hi2 : i ∈ s.queue ++ [s.nextId] := hi
  show (s.queue ++ [s.nextId]).head? = some i
  rcases List.mem_append.mp hi2 with hm | hm
  · have hlt : i ≠ s.nextId := Nat.ne_of_lt (hwf.2.1 i hm)
    rw [statusOf_qmAdd_old s u f i hlt] at hdown
    have hhead := hd i hm hdown
    cases hq : s.queue with
    | nil => rw [hq] at hm; simp at hm
    | cons a t =>
      rw [hq] at hhead
      simpa using hhead
  · have : i = s.nextId := by simpa using hm
    subst this
    rw [statusOf_qmAdd_new s u f hwf.1] at hdown
    simp at hdown

theorem wfBase_setStatus (s : QMState) (i : Nat) (st : String) (hwf : WFBase s) :
    WFBase (setStatus s i st) := by
  obtain ⟨hk, hq, hnd⟩ := hwf
  refine ⟨?_, hq, hnd⟩
  intro p hp
  have hp1 : p.1 ∈ (statusMap i st s.heap).map Prod.fst := List.mem_map_of_mem Prod.fst hp
  rw [statusMap_keys] at hp1
  obtain ⟨q, hq2, hq1⟩ := List.mem_map.mp hp1
  rw [setStatus_nextId, ← hq1]
  exact hk q hq2

theorem tail_not_downloading (s : QMState) (h : Nat) (t : List Nat)
    (hq : s.queue = h :: t) (hnd : s.queue.Nodup) (hd : DownloadingAtHeadOnly s) :
    ∀ j ∈ t, statusOf s j ≠ some "downloading" := by
  intro j hj hdown
  have hmem : j ∈ s.queue := by rw [hq]; exact List.mem_cons_of_mem h hj
  have hhead := hd j hmem hdown
  rw [hq] at hhead
  have hhj : h = j := by simpa using hhead
  rw [hq] at hnd
  exact (List.nodup_cons.mp hnd).1 (hhj ▸ hj)

theorem no_downloading_of_head_safe (s : QMState) (hd : DownloadingAtHeadOnly s)
    (hsafe : headNotDownloading s = true) :
    ∀ j ∈ s.queue, statusOf s j ≠ some "downloading" := by
  intro j hj hdown
  have hhead := hd j hj hdown
  unfold headNotDownloading at hsafe
  cases hq : s.queue with
  | nil => rw [hq] at hj; simp at hj
  | cons h t =>
    rw [hq] at hhead hsafe
    have hhj : h = j := by simpa using hhead
    rw [← hhj] at hdown
    simp only [Bool.not_eq_true'] at hsafe
    rw [hdown] at hsafe
    simp at hsafe

theorem wfBase_peek (s : QMState) (hwf : WFBase s) : WFBase (qmPeekNext s).1 := by
  unfold qmPeekNext
  cases hq : s.queue with
  | nil => exact hwf
  | cons h t => exact wfBase_setStatus s h "downloading" hwf

theorem dho_peek (s : QMState) (hnd : s.queue.Nodup) (hd : DownloadingAtHeadOnly s) :
    DownloadingAtHeadOnly (qmPeekNext s).1 := by
  unfold qmPeekNext
  cases hq : s.queue with
  | nil => exact hd
  | cons h t =>
    intro j hj hdown
    have hj2 : j ∈ s.queue := by
      have : j ∈ (setStatus s h "downloading").queue := hj
      rw [setStatus_queue] at this
      exact this
    show (setStatus s h "downloading").queue.head? = some j
    rw [setStatus_queue, hq]
    rw [statusOf_setStatus] at hdown
    by_cases hjh : j = h
    · simp [hjh]
    · rw [if_neg hjh] at hdown
      rw [hq] at hj2
      rcases List.mem_cons.mp hj2 with hcase | hcase
      · exact absurd hcase hjh
      · exact absurd hdown (tail_not_downloading s h t hq hnd hd j hcase)

theorem wfBase_mark (s : QMState) (i : Nat) (success : Bool) (hwf : WFBase s) :
    WFBase (qmMarkCompleted s i success) := by
  obtain ⟨hk, hq, hnd⟩ := hwf
  rw [qmMarkCompleted_spec]
  refine ⟨?_, ?_, ?_⟩
  · intro p hp
    exact (wfBase_setStatus s i (if success then "completed" else "failed") ⟨hk, hq, hnd⟩).1 p hp
  · intro j hj
    dsimp only at hj
    refine hq j ?_
    by_cases hpop : qmPops s i success = true
    · rw [if_pos hpop] at hj
      exact (List.tail_sublist s.queue).subset hj
    · rw [if_neg hpop] at hj
      exact hj
  · dsimp only
    by_cases hpop : qmPops s i success = true
    · rw [if_pos hpop]
      exact List.Nodup.sublist (List.tail_sublist s.queue) hnd
    · rw [if_neg hpop]
      exact hnd

theorem dho_mark (s : QMState) (i : Nat) (success : Bool) (hnd : s.queue.Nodup)
    (hd : DownloadingAtHeadOnly s) : DownloadingAtHeadOnly (qmMarkCompleted s i success) := by
  have hst : (if success then "completed" else "failed") ≠ "downloading" := by
    cases success <;> decide
  rw [qmMarkCompleted_spec]
  intro j hj hdown
  dsimp only at hj hdown ⊢
  have hdown2 : statusOf (setStatus s i (if success then "completed" else "failed")) j
      = some "downloading" := hdown
  rw [statusOf_setStatus] at hdown2
  by_cases hji : j = i
  · rw [if_pos hji] at hdown2
    cases hso : statusOf s j with
    | none => rw [hso] at hdown2; simp at hdown2
    | some x =>
      rw [hso] at hdown2
      have hcontra : (if success then "completed" else "failed") = "downloading" := by
        simpa using hdown2
      exact absurd hcontra hst
  · rw [if_neg hji] at hdown2
    by_cases hpop : qmPops s i success = true
    · rw [if_pos hpop] at hj
      cases hq2 : s.queue with
      | nil => rw [hq2] at hj; simp at hj
      | cons h t =>
        rw [hq2] at hj
        simp only [List.tail_cons] at hj
        exact absurd hdown2 (tail_not_downloading s h t hq2 hnd hd j hj)
    · rw [if_neg hpop] at hj
      rw [if_neg hpop]
      exact hd j hj hdown2

theorem wfBase_remove (s : QMState) (idx : Nat) (hwf : WFBase s) :
    WFBase (qmRemove s idx).1 := by
  unfold qmRemove
  split
  · obtain ⟨hk, hq, hnd⟩ := hwf
    refine ⟨hk, ?_, ?_⟩
    · intro j hj
      exact hq j ((removeAt_sublist idx s.queue).subset hj)
    · exact List.Nodup.sublist (removeAt_sublist idx s.queue) hnd
  · exact hwf

theorem dho_remove (s : QMState) (idx : Nat) (hnd : s.queue.Nodup)
    (hd : DownloadingAtHeadOnly s) : DownloadingAtHeadOnly (qmRemove s idx).1 := by
  unfold qmRemove
  split
  · dsimp only
    cases idx with
    | zero =>
      intro j hj hdown
      have hdown2 : statusOf s j = some "downloading" := hdown
      cases hq2 : s.queue with
      | nil => rw [hq2] at hj; simp [removeAt] at hj
      | cons h t =>
        rw [hq2] at hj
        simp only [removeAt] at hj
        exact absurd hdown2 (tail_not_downloading s h t hq2 hnd hd j hj)
    | succ n =>
      intro j hj hdown
      have hdown2 : statusOf s j = some "downloading" := hdown
      have hjq : j ∈ s.queue := (removeAt_sublist (n + 1) s.queue).subset hj
      have hhead := hd j hjq hdown2
      show (removeAt (n + 1) s.queue).head? = some j
      rw [removeAt_head_of_pos (n + 1) (Nat.succ_pos n) s.queue]
      exact hhead
  · exact hd

theorem wfBase_moveUp (s : QMState) (idx : Nat) (hwf : WFBase s) :
    WFBase (qmMoveUp s idx).1 := by
  unfold qmMoveUp
  split
  · obtain ⟨hk, hq, hnd⟩ := hwf
    refine ⟨hk, ?_, ?_⟩
    · intro j hj
      exact hq j ((swapAt_perm (idx - 1) s.queue).subset hj)
    · exact ((swapAt_perm (idx - 1) s.queue).nodup_iff).mpr hnd
  · exact hwf

theorem wfBase_moveDown (s : QMState) (idx : Nat) (hwf : WFBase s) :
    WFBase (qmMoveDown s idx).1 := by
  unfold qmMoveDown
  split
  · obtain ⟨hk, hq, hnd⟩ := hwf
    refine ⟨hk, ?_, ?_⟩
    · intro j hj
      exact hq j ((swapAt_perm idx s.queue).subset hj)
    · exact ((swapAt_perm idx s.queue).nodup_iff).mpr hnd
  · exact hwf

theorem dho_moveUp (s : QMState) (idx : Nat) (_hnd : s.queue.Nodup)
    (hd : DownloadingAtHeadOnly s) (hsafe : opSafe s (.moveUp idx) = true) :
    DownloadingAtHeadOnly (qmMoveUp s idx).1 := by
  unfold qmMoveUp
  split
  · next hcond =>
      dsimp only
      cases idx with
      | zero => exact absurd hcond.1 (Nat.lt_irrefl 0)
      | succ n =>
        cases n with
        | zero =>
          intro j hj hdown
          have hdown2 : statusOf s j = some "downloading" := hdown
          have hsafe2 : headNotDownloading s = true := by simpa [opSafe] using hsafe
          have hjq : j ∈ s.queue := (swapAt_perm 0 s.queue).subset hj
          exact absurd hdown2 (no_downloading_of_head_safe s hd hsafe2 j hjq)
        | succ m =>
          intro j hj hdown
          have hdown2 : statusOf s j = some "downloading" := hdown
          have hjq : j ∈ s.queue := (swapAt_perm (m + 1) s.queue).subset hj
          have hhead := hd j hjq hdown2
          show (swapAt (m + 1) s.queue).head? = some j
          rw [swapAt_head_of_pos (m + 1) (Nat.succ_pos m) s.queue]
          exact hhead
  · exact hd

theorem dho_moveDown (s : QMState) (idx : Nat) (_hnd : s.queue.Nodup)
    (hd : DownloadingAtHeadOnly s) (hsafe : opSafe s (.moveDown idx) = true) :
    DownloadingAtHeadOnly (qmMoveDown s idx).1 := by
  unfold qmMoveDown
  split
  · dsimp only
    cases idx with
    | zero =>
      intro j hj hdown
      have hdown2 : statusOf s j = some "downloading" := hdown
      have hsafe2 : headNotDownloading s = true := by simpa [opSafe] using hsafe
      have hjq : j ∈ s.queue := (swapAt_perm 0 s.queue).subset hj
      exact absurd hdown2 (no_downloading_of_head_safe s hd hsafe2 j hjq)
    | succ n =>
      intro j hj hdown
      have hdown2 : statusOf s j = some "downloading" := hdown
      have hjq : j ∈ s.queue := (swapAt_perm (n + 1) s.queue).subset hj
      have hhead := hd j hjq hdown2
      show (swapAt (n + 1) s.queue).head? = some j
      rw [swapAt_head_of_pos (n + 1) (Nat.succ_pos n) s.queue]
      exact hhead
  · exact hd

theorem wf_step (s : QMState) (op : QMOp) (hwf : WFBase s) (hd : DownloadingAtHeadOnly s)
    (hsafe : opSafe s op = true) :
    WFBase (applyOp s op) ∧ DownloadingAtHeadOnly (applyOp s op) := by
  cases op with
  | add u f => exact ⟨wfBase_qmAdd s u f hwf, dho_qmAdd s u f hwf hd⟩
  | remove idx => exact ⟨wfBase_remove s idx hwf, dho_remove s idx hwf.2.2 hd⟩
  | moveUp idx => exact ⟨wfBase_moveUp s idx hwf, dho_moveUp s idx hwf.2.2 hd hsafe⟩
  | moveDown idx => exact ⟨wfBase_moveDown s idx hwf, dho_moveDown s idx hwf.2.2 hd hsafe⟩
  | markCompleted i success =>
      exact ⟨wfBase_mark s i success hwf, dho_mark s i success hwf.2.2 hd⟩
  | peekNext => exact ⟨wfBase_peek s hwf, dho_peek s hwf.2.2 hd⟩

theorem wf_run (ops : List QMOp) (s : QMState) (hwf : WFBase s)
    (hd : DownloadingAtHeadOnly s) (hsafe : safeOps s ops = true) :
    WFBase (qmRun s ops) ∧ DownloadingAtHeadOnly (qmRun s ops) := by
  induction ops generalizing s with
  | nil => exact ⟨hwf, hd⟩
  | cons op ops ih =>
    unfold safeOps at hsafe
    rw [Bool.and_eq_true] at hsafe
    obtain ⟨hw2, hd2⟩ := wf_step s op hwf hd hsafe.1
    exact ih (applyOp s op) hw2 hd2 hsafe.2

/-- Claim C1 (counterexample): with the head item Downloading after a
`peek_next`, `move_down(0)` displaces it to index 1 and a further
`peek_next` marks the new head Downloading too — the live queue then
holds two Downloading items, and the originally Downloading item is no
longer at index 0 though it was neither completed, failed nor removed. -/
theorem c1_counterexample :
    statusOf (qmRun qmInit c1Trace) 0 = some "downloading" ∧
    statusOf (qmRun qmInit c1Trace) 1 = some "downloading" ∧
    (qmRun qmInit c1Trace).queue = [1, 0] := by
  refine ⟨by decide, by decide, by decide⟩

/-- Claim C1 (amended): for every operation sequence from the empty queue
in which `move_up(1)` and `move_down(0)` — the two calls that displace
the queue head — are never issued while the head is Downloading, the live
queue never contains two Downloading items (the Downloading filter has at
most one element) and any Downloading item sits at index 0; since this
holds after every prefix, a Downloading head stays at index 0 until it is
completed, failed or removed. -/
theorem c1_queue_invariant (ops : List QMOp) (hsafe : safeOps qmInit ops = true) :
    ((qmRun qmInit ops).queue.filter
        (fun i => statusOf (qmRun qmInit ops) i == some "downloading")).length ≤ 1 ∧
    ∀ i ∈ (qmRun qmInit ops).queue,
      statusOf (qmRun qmInit ops) i = some "downloading" →
        (qmRun qmInit ops).queue.head? = some i := by
  have hbase : WFBase qmInit := by
    refine ⟨?_, ?_, ?_⟩ <;> simp [qmInit]
  have hdho : DownloadingAtHeadOnly qmInit := by
    intro i hi
    simp [qmInit] at hi
  obtain ⟨hwf, hd⟩ := wf_run ops qmInit hbase hdho hsafe
  refine ⟨?_, hd⟩
  have hnd : (qmRun qmInit ops).queue.Nodup := hwf.2.2
  have hfnd : ((qmRun qmInit ops).queue.filter
      (fun i => statusOf (qmRun qmInit ops) i == some "downloading")).Nodup :=
    hnd.filter _
  cases hh : (qmRun qmInit ops).queue.head? with
  | none =>
    rw [List.head?_eq_none_iff] at hh
    rw [hh]
    simp
  | some h =>
    apply nodup_length_le_one_of_all_eq hfnd h
    intro a ha
    have hmem := List.mem_filter.mp ha
    have hdown : statusOf (qmRun qmInit ops) a = some "downloading" := by
      simpa using hmem.2
    have h2 := hd a hmem.1 hdown
    rw [hh] at h2
    exact (Option.some_inj.mp h2).symm

/-- Witness for C1 (amended): a safe trace with adds, a download start, a
safe reorder and a completion keeps the invariant. -/
theorem c1_queue_invariant_witness :
    safeOps qmInit c1SafeTrace = true ∧
    (((qmRun qmInit c1SafeTrace).queue.filter
        (fun i => statusOf (qmRun qmInit c1SafeTrace) i == some "downloading")).length ≤ 1 ∧
      ∀ i ∈ (qmRun qmInit c1SafeTrace).queue,
        statusOf (qmRun qmInit c1SafeTrace) i = some "downloading" →
          (qmRun qmInit c1SafeTrace).queue.head? = some i) :=
  ⟨by decide, c1_queue_invariant c1SafeTrace (by decide)⟩

theorem qmPops_of_head (s : QMState) (i : Nat) (success : Bool)
    (hh : s.queue.head? = some i) : qmPops s i success = true := by
  unfold qmPops
  cases hq : s.queue with
  | nil => rw [hq] at hh; simp at hh
  | cons h t =>
    rw [hq] at hh
    have hhi : h = i := by simpa using hh
    subst hhi
    simp

theorem queueLive_qmAdd (s : QMState) (u f : String) (hwf : WFBase s)
    (hlive : QueueLive s) : QueueLive (qmAdd s u f) := by
  intro j hj
  have hj2 : j ∈ s.queue ++ [s.nextId] := hj
  rcases List.mem_append.mp hj2 with hm | hm
  · have hne : j ≠ s.nextId := Nat.ne_of_lt (hwf.2.1 j hm)
    rw [statusOf_qmAdd_old s u f j hne]
    exact hlive j hm
  · have : j = s.nextId := by simpa using hm
    subst this
    rw [statusOf_qmAdd_new s u f hwf.1]
    exact Or.inl rfl

theorem queueLive_peek (s : QMState) (hlive : QueueLive s) :
    QueueLive (qmPeekNext s).1 := by
  unfold qmPeekNext
  cases hq : s.queue with
  | nil => exact hlive
  | cons h t =>
    intro j hj
    have hj2 : j ∈ s.queue := by
      have : j ∈ (setStatus s h "downloading").queue := hj
      rw [setStatus_queue] at this
      exact this
    show statusOf (setStatus s h "downloading") j = some "pending" ∨
      statusOf (setStatus s h "downloading") j = some "downloading"
    rw [statusOf_setStatus]
    by_cases hjh : j = h
    · rw [if_pos hjh]
      rcases hlive j hj2 with hp | hp <;> rw [hp] <;> exact Or.inr rfl
    · rw [if_neg hjh]
      exact hlive j hj2

theorem queueLive_mark (s : QMState) (i : Nat) (success : Bool) (hnd : s.queue.Nodup)
    (hlive : QueueLive s) (hh : s.queue.head? = some i) :
    QueueLive (qmMarkCompleted s i success) := by
  have hpop : qmPops s i success = true := qmPops_of_head s i success hh
  rw [qmMarkCompleted_spec]
  intro j hj
  dsimp only at hj
  rw [if_pos hpop] at hj
  cases hq2 : s.queue with
  | nil => rw [hq2] at hj; simp at hj
  | cons h t =>
    rw [hq2] at hj
    simp only [List.tail_cons] at hj
    have hhi : h = i := by rw [hq2] at hh; simpa using hh
    have hji : j ≠ i := by
      intro hcontra
      rw [hq2] at hnd
      exact (List.nodup_cons.mp hnd).1 ((hhi.trans hcontra.symm) ▸ hj)
    show statusOf (setStatus s i (if success then "completed" else "failed")) j
        = some "pending" ∨
      statusOf (setStatus s i (if success then "completed" else "failed")) j
        = some "downloading"
    rw [statusOf_setStatus, if_neg hji]
    exact hlive j (by rw [hq2]; exact List.mem_cons_of_mem h hj)

theorem queueLive_remove (s : QMState) (idx : Nat) (hlive : QueueLive s) :
    QueueLive (qmRemove s idx).1 := by
  unfold qmRemove
  split
  · intro j hj
    exact hlive j ((removeAt_sublist idx s.queue).subset hj)
  · exact hlive

theorem queueLive_moveUp (s : QMState) (idx : Nat) (hlive : QueueLive s) :
    QueueLive (qmMoveUp s idx).1 := by
  unfold qmMoveUp
  split
  · intro j hj
    exact hlive j ((swapAt_perm (idx - 1) s.queue).subset hj)
  · exact hlive

theorem queueLive_moveDown (s : QMState) (idx : Nat) (hlive : QueueLive s) :
    QueueLive (qmMoveDown s idx).1 := by
  unfold qmMoveDown
  split
  · intro j hj
    exact hlive j ((swapAt_perm idx s.queue).subset hj)
  · exact hlive

theorem wfq_step (s : QMState) (op : QMOp) (hwf : WFBase s) (hlive : QueueLive s)
    (hok : headOnlyOk s op = true) :
    WFBase (applyOp s op) ∧ QueueLive (applyOp s op) := by
  cases op with
  | add u f => exact ⟨wfBase_qmAdd s u f hwf, queueLive_qmAdd s u f hwf hlive⟩
  | remove idx => exact ⟨wfBase_remove s idx hwf, queueLive_remove s idx hlive⟩
  | moveUp idx => exact ⟨wfBase_moveUp s idx hwf, queueLive_moveUp s idx hlive⟩
  | moveDown idx => exact ⟨wfBase_moveDown s idx hwf, queueLive_moveDown s idx hlive⟩
  | markCompleted i success =>
    have hh : s.queue.head? = some i := by
      have : (s.queue.head? == some i) = true := by simpa [headOnlyOk] using hok
      exact eq_of_beq this
    exact ⟨wfBase_mark s i success hwf, queueLive_mark s i success hwf.2.2 hlive hh⟩
  | peekNext => exact ⟨wfBase_peek s hwf, queueLive_peek s hlive⟩

theorem wfq_run (ops : List QMOp) (s : QMState) (hwf : WFBase s) (hlive : QueueLive s)
    (hok : headOnlyOps s ops = true) :
    WFBase (qmRun s ops) ∧ QueueLive (qmRun s ops) := by
  induction ops generalizing s with
  | nil => exact ⟨hwf, hlive⟩
  | cons op ops ih =>
    unfold headOnlyOps at hok
    rw [Bool.and_eq_true] at hok
    obtain ⟨hw2, hl2⟩ := wfq_step s op hwf hlive hok.1
    exact ih (applyOp s op) hw2 hl2 hok.2

theorem qmRun_append (s : QMState) (l1 l2 : List QMOp) :
    qmRun s (l1 ++ l2) = qmRun (qmRun s l1) l2 := by
  induction l1 generalizing s with
  | nil => rfl
  | cons op l1 ih =>
    show qmRun (applyOp s op) (l1 ++ l2) = _
    rw [ih]
    rfl

theorem headOnlyOps_append (s : QMState) (l1 l2 : List QMOp) :
    headOnlyOps s (l1 ++ l2)
      = (headOnlyOps s l1 && headOnlyOps (qmRun s l1) l2) := by
  induction l1 generalizing s with
  | nil => simp [headOnlyOps, qmRun]
  | cons op l1 ih =>
    show (headOnlyOk s op && headOnlyOps (applyOp s op) (l1 ++ l2)) = _
    rw [ih]
    show _ = ((headOnlyOk s op && headOnlyOps (applyOp s op) l1)
      && headOnlyOps (qmRun (applyOp s op) l1) l2)
    rw [Bool.and_assoc]

theorem statusRank_le_two (st : String) : statusRank st ≤ 2 := by
  unfold statusRank
  split <;> omega

theorem itemRec_qmAdd_old (s : QMState) (u f : String) (j : Nat) (r : QueueItemRec)
    (h1 : itemRec s j = some r) : itemRec (qmAdd s u f) j = some r := by
  unfold itemRec qmAdd
  dsimp only
  rw [lookup_append]
  unfold itemRec at h1
  rw [h1]
  rfl

theorem rank_step (s : QMState) (op : QMOp) (_hwf : WFBase s) (hlive : QueueLive s)
    (hok : headOnlyOk s op = true) (j : Nat) (r r2 : QueueItemRec)
    (h1 : itemRec s j = some r) (h2 : itemRec (applyOp s op) j = some r2) :
    statusRank r.status ≤ statusRank r2.status := by
  cases op with
  | add u f =>
    have h2x : itemRec (qmAdd s u f) j = some r2 := h2
    rw [itemRec_qmAdd_old s u f j r h1] at h2x
    injection h2x with h2x
    rw [← h2x]
  | remove idx =>
    have h2x : itemRec (qmRemove s idx).1 j = some r2 := h2
    have hsame : itemRec (qmRemove s idx).1 j = itemRec s j := by
      unfold qmRemove
      split <;> rfl
    rw [hsame, h1] at h2x
    injection h2x with h2x
    rw [← h2x]
  | moveUp idx =>
    have h2x : itemRec (qmMoveUp s idx).1 j = some r2 := h2
    have hsame : itemRec (qmMoveUp s idx).1 j = itemRec s j := by
      unfold qmMoveUp
      split <;> rfl
    rw [hsame, h1] at h2x
    injection h2x with h2x
    rw [← h2x]
  | moveDown idx =>
    have h2x : itemRec (qmMoveDown s idx).1 j = some r2 := h2
    have hsame : itemRec (qmMoveDown s idx).1 j = itemRec s j := by
      unfold qmMoveDown
      split <;> rfl
    rw [hsame, h1] at h2x
    injection h2x with h2x
    rw [← h2x]
  | peekNext =>
    show statusRank r.status ≤ statusRank r2.status
    have h2' := h2
    unfold applyOp qmPeekNext at h2'
    cases hq : s.queue with
    | nil =>
      rw [hq] at h2'
      dsimp only at h2'
      rw [h1] at h2'
      injection h2' with h2'
      rw [← h2']
    | cons h t =>
      rw [hq] at h2'
      dsimp only at h2'
      rw [itemRec_setStatus] at h2'
      by_cases hjh : j = h
      · rw [if_pos hjh, h1] at h2'
        have hr2 : r2 = { r with status := "downloading" } := by
          simpa using h2'.symm
        have hst : statusOf s j = some r.status := by
          unfold statusOf
          rw [h1]
          rfl
        have hjq : j ∈ s.queue := by
          rw [hq, hjh]
          exact List.mem_cons_self h t
        rw [hr2]
        show statusRank r.status ≤ statusRank "downloading"
        rcases hlive j hjq with hp | hp <;> rw [hst] at hp <;>
          injection hp with hp <;> rw [hp] <;> decide
      · rw [if_neg hjh, h1] at h2'
        injection h2' with h2'
        rw [← h2']
  | markCompleted i success =>
    have h2x : itemRec (qmMarkCompleted s i success) j = some r2 := h2
    rw [qmMarkCompleted_spec] at h2x
    have h2' : itemRec (setStatus s i (if success then "completed" else "failed")) j
        = some r2 := h2x
    rw [itemRec_setStatus] at h2'
    by_cases hji : j = i
    · rw [if_pos hji, h1] at h2'
      have hr2 : r2 = { r with status := (if success then "completed" else "failed") } := by
        simpa using h2'.symm
      rw [hr2]
      have : statusRank (if success then "completed" else "failed") = 2 := by
        cases success <;> decide
      show statusRank r.status ≤ statusRank (if success then "completed" else "failed")
      rw [this]
      exact statusRank_le_two r.status
    · rw [if_neg hji, h1] at h2'
      injection h2' with h2'
      rw [← h2']

/-- Claim C9 (counterexample): `mark_completed` on an item that is not
the queue head leaves the now-Completed item in the live queue; once the
original head is removed the Completed item reaches the head and the next
`peek_next` re-marks it Downloading — a backward status move
Completed → Downloading. -/
theorem c9_counterexample :
    statusOf (qmRun qmInit c9Trace) 1 = some "completed" ∧
    statusOf (qmRun qmInit (c9Trace ++ [QMOp.remove 0, QMOp.peekNext])) 1
      = some "downloading" := by
  refine ⟨by decide, by decide⟩

/-- Claim C9 (amended): provided every `mark_completed` call targets the
current queue head (as the client does on the normal completion path),
each operation moves every item's status only forward along
Pending → Downloading → {Completed, Failed}: the status rank never
decreases from one state to the next. Without that proviso,
`mark_completed` on a non-head item leaves a Completed item in the live
queue and a later `peek_next` can re-mark it Downloading. -/
theorem c9_status_forward (ops : List QMOp) (op : QMOp) (j : Nat) (r r2 : QueueItemRec)
    (hok : headOnlyOps qmInit (ops ++ [op]) = true)
    (h1 : itemRec (qmRun qmInit ops) j = some r)
    (h2 : itemRec (qmRun qmInit (ops ++ [op])) j = some r2) :
    statusRank r.status ≤ statusRank r2.status := by
  rw [headOnlyOps_append, Bool.and_eq_true] at hok
  have hbase : WFBase qmInit := by
    refine ⟨?_, ?_, ?_⟩ <;> simp [qmInit]
  have hlive0 : QueueLive qmInit := by
    intro i hi
    simp [qmInit] at hi
  obtain ⟨hwf, hlive⟩ := wfq_run ops qmInit hbase hlive0 hok.1
  have hstep : headOnlyOk (qmRun qmInit ops) op = true := by
    have h := hok.2
    unfold headOnlyOps at h
    rw [Bool.and_eq_true] at h
    exact h.1
  rw [qmRun_append] at h2
  exact rank_step (qmRun qmInit ops) op hwf hlive hstep j r r2 h1 h2

/-- Witness for C9 (amended): along a head-only trace, the second item
goes from Pending to Downloading when `peek_next` reaches it. -/
theorem c9_status_forward_witness :
    headOnlyOps qmInit (c9SafeTrace ++ [QMOp.peekNext]) = true ∧
    itemRec (qmRun qmInit c9SafeTrace) 1
      = some { user := "b", filename := "f2", command := "!b f2", status := "pending" } ∧
    itemRec (qmRun qmInit (c9SafeTrace ++ [QMOp.peekNext])) 1
      = some { user := "b", filename := "f2", command := "!b f2", status := "downloading" } ∧
    statusRank "pending" ≤ statusRank "downloading" :=
  ⟨by decide, by decide, by decide,
    c9_status_forward c9SafeTrace QMOp.peekNext 1
      { user := "b", filename := "f2", command := "!b f2", status := "pending" }
      { user := "b", filename := "f2", command := "!b f2", status := "downloading" }
      (by decide) (by decide) (by decide)⟩

end IrcEbooks
